import Mathlib

/-!
# Verification of the pakkero obfuscation library (`lib/pakkero/Obfuscation.go`)

A shallow embedding of the string-rewriting functions of the obfuscation
pipeline.  Source text is modelled as `List Char` (rune-level; every token the
claims involve is ASCII, where Go's byte-level `len`/indexing agrees with the
rune-level model).  Randomness (`crypto/rand`, `math/rand`) is modelled by
explicit generator parameters (`Nat → ...`); each call site that draws fresh
randomness in the Go code consumes one index of the generator, threaded by a
counter.  The process-wide map `Secrets` (a Go `map[string][]string`) is
modelled as an association list in insertion order; Go's map iteration order
is unspecified, and the insertion-order list realises one admissible
iteration order.

Helper functions that live in other files of the repository
(`ExecCommand`, `Unique`, `ReverseStringArray`, `ShuffleSlice`,
`GenerateNullString`, `ListImportsFromFile`, `GenerateBitshift`) are either
reproduced from their documented behaviour (`Unique`, `ReverseStringArray`)
or abstracted into parameters constrained by the specification
(`ShuffleSlice` as a permutation, `GenerateNullString` as a filler-string
generator, `GenerateBitshift`/`GenerateStringFunc` body as an opaque
code-emitting collaborator).
-/

namespace Pakkero

/-- Source text, one element per rune. -/
abbrev Lit := List Char

/-- Fuelled scanner behind `replaceAll`; structural recursion on the fuel
keeps the function kernel-computable.  With fuel at least the length of the
text (the only way it is ever called) the fuel never runs out, because each
step consumes at least one rune. -/
def replaceAllF (pat rep : Lit) : Nat → Lit → Lit
  | _, [] => []
  | 0, s => s
  | fuel + 1, c :: rest =>
    if pat ≠ [] ∧ pat.isPrefixOf (c :: rest) then
      rep ++ replaceAllF pat rep fuel ((c :: rest).drop pat.length)
    else
      c :: replaceAllF pat rep fuel rest

/-- Go `strings.ReplaceAll(s, pat, rep)`: replace every non-overlapping
occurrence of `pat` in `s` by `rep`, scanning left to right.  The Go
function inserts `rep` between runes when `pat` is empty; every pattern the
code passes is non-empty, and the guard keeps the function total. -/
def replaceAll (pat rep : Lit) (s : Lit) : Lit :=
  replaceAllF pat rep s.length s

/-- Index of the first occurrence of `pat` in `s`; `none` models the `-1`
result of Go `strings.Index`. -/
def firstIdx (pat : Lit) : Lit → Option Nat
  | [] => if pat.isPrefixOf [] then some 0 else none
  | c :: rest =>
    if pat.isPrefixOf (c :: rest) then some 0
    else (firstIdx pat rest).map (· + 1)

/-- Go `strings.Contains(s, pat)`. -/
def containsSub (s pat : Lit) : Bool :=
  (firstIdx pat s).isSome

/-- Fuelled core of `Unique`; with fuel at least the length of the list the
fuel never runs out, because filtering never lengthens a list. -/
def UniqueF {α : Type} [DecidableEq α] : Nat → List α → List α
  | _, [] => []
  | 0, l => l
  | fuel + 1, x :: xs => x :: UniqueF fuel (xs.filter (fun y => decide (y ≠ x)))

/-- `Unique` from the repository's utils: deduplicate a list keeping the
first occurrence of each element, preserving order.  (The Go original walks
the list with a seen-set; filtering later duplicates away is the same
function.) -/
def Unique {α : Type} [DecidableEq α] (l : List α) : List α :=
  UniqueF l.length l

/-- `ReverseStringArray` from the repository's utils. -/
def ReverseStringArray {α : Type} (l : List α) : List α := l.reverse

/-- One entry of the `Secrets` registry: `Secrets[rawToken] = [plaintext,
accessorName]`. -/
structure SecretEntry where
  rawToken : Lit
  plaintext : Lit
  accessor : Lit
deriving DecidableEq, Repr

/-- The `Secrets` map, as an association list in insertion order. -/
abbrev Registry := List SecretEntry

/-- Lookup `Secrets[k]`, returning the `[plaintext, accessorName]` pair. -/
def lookupSec : Registry → Lit → Option (Lit × Lit)
  | [], _ => none
  | e :: es, k => if e.rawToken = k then some (e.plaintext, e.accessor) else lookupSec es k

/-- Go `isSeparator` restricted to ASCII (neither alphanumeric nor
underscore); all tokens the code title-cases are ASCII. -/
def isSeparator (c : Char) : Bool := !(c.isAlphanum || c = '_')

/-- Go `strings.Title(s)`: upper-case every rune that follows a separator
(the previous rune of the first position counts as a separator). -/
def goTitleAux : Bool → Lit → Lit
  | _, [] => []
  | sep, c :: rest => (if sep then c.toUpper else c) :: goTitleAux (isSeparator c) rest

/-- Capitalised variant of a token, as produced by `strings.Title`. -/
def goTitle (s : Lit) : Lit := goTitleAux true s

/-! ## String-literal discovery (`ObfuscateStrings`, lines 239-259)

The Go code matches the regexp `q.*?q` for each quote character `q` with
`FindAllString`: leftmost, non-overlapping, lazy matches.  Go's `.` does not
match a newline, so a match is `q`, a run of characters that are neither `q`
nor a newline, then `q`; on failure the scan restarts one rune later. -/

/-- Character admissible between the delimiters of one literal: Go's lazy
`.*?` stops at the first closing delimiter, and `.` never matches `\n`. -/
def litChar (q : Char) (c : Char) : Bool := c != q && c != '\n'

/-- Fuelled core of `findLits`; one rune of fuel per scan position. -/
def findLitsF (q : Char) : Nat → Lit → List Lit
  | _, [] => []
  | 0, _ => []
  | fuel + 1, c0 :: rest =>
    if c0 = q then
      match rest.dropWhile (litChar q) with
      | [] => findLitsF q fuel rest
      | r :: rs =>
        if r = q then
          (q :: rest.takeWhile (litChar q) ++ [q]) :: findLitsF q fuel rs
        else
          findLitsF q fuel rest
    else
      findLitsF q fuel rest

/-- All matches of `q.*?q` in `s`, leftmost first, non-overlapping
(`regexp.FindAllString(body, -1)`). -/
def findLits (q : Char) (s : Lit) : List Lit := findLitsF q s.length s

/-- Backtick character (the first entry of `tickTypes`). -/
def backtick : Char := Char.ofNat 96

/-- Single-quote character. -/
def singleQuote : Char := Char.ofNat 39

/-- The three string delimiters tried by `ObfuscateStrings`. -/
def tickTypes : List Char := [backtick, singleQuote, '"']

/-! ## Registration into the `Secrets` registry (lines 248-258) -/

/-- The sentinel looked for in the accessor name (`strings.Contains(w[1],
"leave")`). -/
def leaveTok : Lit := "leave".toList

/-- One pass of the inner registration loop over a deduplicated word list:
a word is considered only when it is longer than two runes (non-empty
content inside the two delimiters) and contains no backslash; a word whose
key is already present is left alone, otherwise a new entry is appended with
a fresh generated accessor name (`gen n` models the `GenerateTyposquatName()`
call, one counter index per draw). -/
def registerWords (gen : Nat → Lit) : Registry × Nat → List Lit → Registry × Nat
  | st, [] => st
  | (reg, n), w :: ws =>
    if w.length > 2 ∧ ¬ w.contains '\\' then
      match lookupSec reg w with
      | some _ => registerWords gen (reg, n) ws
      | none =>
        registerWords gen (reg ++ [⟨w, (w.drop 1).dropLast, gen n⟩], n + 1) ws
    else
      registerWords gen (reg, n) ws

/-- The discovery loop over the three tick types: for each delimiter, find
all matches in the body, deduplicate them, and feed them to the
registration loop.  Discovery always reads the original body. -/
def registerAll (gen : Nat → Lit) (st : Registry × Nat) (body : Lit) : Registry × Nat :=
  tickTypes.foldl (fun acc q => registerWords gen acc (Unique (findLits q body))) st

/-! ## Replacement over the registry (lines 260-271) -/

/-- The string substituted for a registry key: `accessorName()` normally,
the bare plaintext when the accessor name carries the `leave` sentinel. -/
def entryRep (e : SecretEntry) : Lit :=
  if containsSub e.accessor leaveTok then e.plaintext else e.accessor ++ ['(', ')']

/-- The replacement loop `for k, w := range Secrets`, in registry order. -/
def replaceLoop : Registry → Lit → Lit
  | [], b => b
  | e :: es, b => replaceLoop es (replaceAll e.rawToken (entryRep e) b)

/-- Entries for which an accessor function is emitted (the non-`leave`
branch of the same loop). -/
def funcPairs (reg : Registry) : Registry :=
  reg.filter (fun e => !(containsSub e.accessor leaveTok))

/-- The accumulated `funcString`: one generated accessor function per
non-`leave` entry followed by a newline.  The body of each function is
produced by `GenerateStringFunc`/`GenerateBitshift`; the emitted text is
abstracted into the collaborator `mkFunc plaintext accessor`. -/
def funcString (mkFunc : Lit → Lit → Lit) (reg : Registry) : Lit :=
  (funcPairs reg).foldl (fun acc e => acc ++ mkFunc e.plaintext e.accessor ++ ['\n']) []

/-! ## Header/body split (lines 226-236) -/

/-- The pattern located by `strings.Index(input, "import (")`. -/
def importPat : Lit := "import (".toList

/-- The header/body split of `ObfuscateStrings`.  Go computes
`imports := Index(input, "import (")` and slices `input[imports:]`; when the
pattern is absent `imports = -1` and the slice panics, modelled as `none`.
When `")"` is absent after the pattern Go gets `endimports = -1` and the cut
degenerates to `input[:imports]`, which does not panic. -/
def splitImports (input : Lit) : Option (Lit × Lit) :=
  match firstIdx importPat input with
  | none => none
  | some i =>
    let cut := match firstIdx [')'] (input.drop i) with
      | some e => i + e + 1
      | none => i
    some (input.take cut, input.drop cut)

/-- `ObfuscateStrings`: split off the import header, register every
discovered literal, substitute every registry entry in the body, append the
generated accessor functions, and reassemble.  The registry state and the
counter of generator draws are passed explicitly (they are the process-wide
`Secrets` map and the stream of `GenerateTyposquatName()` results in Go). -/
def ObfuscateStrings (gen : Nat → Lit) (mkFunc : Lit → Lit → Lit)
    (reg : Registry) (n : Nat) (input : Lit) : Option (Lit × Registry × Nat) :=
  match splitImports input with
  | none => none
  | some (hdr, body) =>
    let rn := registerAll gen (reg, n) body
    let body' := replaceLoop rn.1 body
    some (hdr ++ body' ++ '\n' :: funcString mkFunc rn.1, rn.1, rn.2)

/-! ## Identifier discovery and renaming (`ObfuscateFuncVars`, lines 288-301)

The regexp `\bob[a-zA-Z0-9_]+` is matched with `FindAllString`: a match
starts at a word boundary (start of text or after a non-word rune), reads
`ob`, then a maximal non-empty run of word runes. -/

/-- A rune of the class `[a-zA-Z0-9_]`. -/
def isWordChar (c : Char) : Bool := c.isAlpha || c.isDigit || c = '_'

/-- Fuelled core of `findObTokens`; one rune of fuel per scan position. -/
def findObTokensF : Nat → Bool → Lit → List Lit
  | _, _, [] => []
  | 0, _, _ => []
  | fuel + 1, prevW, c :: rest =>
    if prevW = false ∧ c = 'o' ∧ rest.take 1 = ['b'] then
      let run := (rest.drop 1).takeWhile isWordChar
      if run = [] then findObTokensF fuel true rest
      else ('o' :: 'b' :: run) :: findObTokensF fuel true ((rest.drop 1).drop run.length)
    else
      findObTokensF fuel (isWordChar c) rest

/-- All matches of `\bob[a-zA-Z0-9_]+`, leftmost first, non-overlapping.
The boolean argument records whether the previous rune was a word rune
(`false` at the start of the text). -/
def findObTokens (prevW : Bool) (s : Lit) : List Lit := findObTokensF s.length prevW s

/-- The tagged tokens discovered in a source text. -/
def obDiscover (input : Lit) : List Lit := findObTokens false input

/-- The token sequence the renaming loop iterates over: the Go code first
reverses the discovered list, then deduplicates it keeping first
occurrences (`words = ReverseStringArray(words); words = Unique(words)`). -/
def obProcList (input : Lit) : List Lit := Unique (ReverseStringArray (obDiscover input))

/-- Token sequence prescribed by the specification's words: deduplicate the
discovery list first (keeping first occurrences in discovery order), then
reverse.  Kept separate to compare with `obProcList`. -/
def specProcList (input : Lit) : List Lit := (Unique (obDiscover input)).reverse

/-- The renaming fold: each token is globally replaced by one freshly
generated name (`gen i`, one counter index per `GenerateTyposquatName()`
call). -/
def obfuscateVarsFold (gen : Nat → Lit) : List Lit → Nat → Lit → Lit
  | [], _, s => s
  | w :: ws, i, s => obfuscateVarsFold gen ws (i + 1) (replaceAll w (gen i) s)

/-- `ObfuscateFuncVars`. -/
def ObfuscateFuncVars (gen : Nat → Lit) (input : Lit) : Lit :=
  obfuscateVarsFold gen (obProcList input) 0 input

/-- Renaming fold over the specification-ordered token sequence, for
comparison with `ObfuscateFuncVars`. -/
def specObfuscateFuncVars (gen : Nat → Lit) (input : Lit) : Lit :=
  obfuscateVarsFold gen (specProcList input) 0 input

/-! ## Typosquat name alphabet (`GenerateTyposquatName`, lines 183-201) -/

/-- First-position alphabet (letter lookalikes only). -/
def letterRunes : Lit := "OÓÕÔÒÖŌŎŐƠΘΟ".toList

/-- Full alphabet (adds the digit zero). -/
def mixedRunes : Lit := "0OÓÕÔÒÖŌŎŐƠΘΟ".toList

/-- A string `GenerateTyposquatName` can return: 128 runes over
`mixedRunes`, the first drawn from `letterRunes`. -/
def IsTyposquatName (s : Lit) : Prop :=
  s.length = 128 ∧ (∀ c ∈ s, c ∈ mixedRunes) ∧ ∀ c ∈ s.take 1, c ∈ letterRunes

/-! ## Anti-debug injection (`GenerateRandomAntiDebug`, lines 308-340) -/

/-- The fixed eight-routine check set (`randomChecks`), verbatim from the
source, including the trailing space of `obEnvParentDetect() `. -/
def randomChecks : List Lit :=
  [ "obDependencyCheck()".toList,
    "obEnvArgsDetect()".toList,
    "obParentTracerDetect()".toList,
    "obParentCmdLineDetect()".toList,
    "obEnvDetect()".toList,
    "obEnvParentDetect() ".toList,
    "obLdPreloadDetect()".toList,
    "obParentDetect()".toList ]

/-- The marker comment located with `strings.Contains(v, "// OB_CHECK")`. -/
def obCheckMarker : Lit := "// OB_CHECK".toList

/-- The `threadString` built for one marker line from a shuffled check list:
one `go …;` concurrent-launch statement per routine, concatenated in
shuffle order. -/
def goLine (checks : List Lit) : Lit :=
  (checks.map (fun v => "go ".toList ++ v ++ [';'])).flatten

/-- The line-rewriting loop: line `i` is replaced by the `threadString` of
an independently shuffled copy of `randomChecks` when it contains the
marker, and is kept verbatim otherwise.  `shuffle i` models the result of
the `ShuffleSlice(randomChecks)` call made while visiting line `i`
(`ShuffleSlice` lives outside this file; the specification constrains it to
a random permutation of the fixed set). -/
def antiDebugAux (shuffle : Nat → List Lit) : Nat → List Lit → List Lit
  | _, [] => []
  | i, v :: rest =>
    (if containsSub v obCheckMarker then goLine (shuffle i) else v) ::
      antiDebugAux shuffle (i + 1) rest

/-- Go `strings.Split(input, "\n")`. -/
def splitLines : Lit → List Lit
  | [] => [[]]
  | c :: rest =>
    if c = '\n' then [] :: splitLines rest
    else
      match splitLines rest with
      | l :: ls => (c :: l) :: ls
      | [] => [[c]]

/-- `GenerateRandomAntiDebug`: split into lines, rewrite marker lines,
join back with newlines. -/
def GenerateRandomAntiDebug (shuffle : Nat → List Lit) (input : Lit) : Lit :=
  List.intercalate ['\n'] (antiDebugAux shuffle 0 (splitLines input))

/-! ## UPX signature scrubbing (`StripUPXHeaders`, lines 69-112) -/

/-- The fixed UPX signature fragments, verbatim from the source: escaped
`\xNN` byte sequences handed to `sed`. -/
def upxHeader : List Lit :=
  [ "\\x49\\x6e\\x66\\x6f\\x3a\\x20\\x54\\x68\\x69\\x73".toList,
    "\\x20\\x66\\x69\\x6c\\x65\\x20\\x69\\x73\\x20\\x70".toList,
    "\\x61\\x63\\x6b\\x65\\x64\\x20\\x77\\x69\\x74\\x68".toList,
    "\\x20\\x74\\x68\\x65\\x20\\x55\\x50\\x58\\x20\\x65".toList,
    "\\x78\\x65\\x63\\x75\\x74\\x61\\x62\\x6c\\x65\\x20".toList,
    "\\x70\\x61\\x63\\x6b\\x65\\x72\\x20\\x68\\x74\\x74".toList,
    "\\x70\\x3a\\x2f\\x2f\\x75\\x70\\x78\\x2e\\x73\\x66".toList,
    "\\x2e\\x6e\\x65\\x74\\x20\\x24\\x0a\\x00\\x24\\x49".toList,
    "\\x64\\x3a\\x20\\x55\\x50\\x58\\x20\\x33\\x2e\\x39".toList,
    "\\x36\\x20\\x43\\x6f\\x70\\x79\\x72\\x69\\x67\\x68".toList,
    "\\x74\\x20\\x28\\x43\\x29\\x20\\x31\\x39\\x39\\x36".toList,
    "\\x2d\\x32\\x30\\x32\\x30\\x20\\x74\\x68\\x65\\x20".toList,
    "\\x55\\x50\\x58\\x20\\x54\\x65\\x61\\x6d\\x2e\\x20".toList,
    "\\x41\\x6c\\x6c\\x20\\x52\\x69\\x67\\x68\\x74\\x73".toList,
    "\\x20\\x52\\x65\\x73\\x65\\x72\\x76\\x65\\x64\\x2e".toList,
    "\\x55\\x50\\x58\\x21".toList ]

/-- One lowercase hexadecimal digit. -/
def hexDigit (n : Nat) : Char :=
  if n < 10 then Char.ofNat (48 + n) else Char.ofNat (87 + n)

/-- Go `hex.EncodeToString` of one byte: always exactly two lowercase hex
digits. -/
def hexEncodeByte (b : Nat) : Lit :=
  [hexDigit (b / 16 % 16), hexDigit (b % 16)]

/-- The replacement-building loop of `StripUPXHeaders`: starting from the
empty string, append `\x` plus the hex encoding of one fresh random byte
(`rand k`, one index per `rand.Read` call) while the accumulated string is
shorter than the fragment (`for len(sedString) < len(v)`).  Structurally
fuelled: every iteration grows the accumulator by four runes, so fuel `L`
always suffices. -/
def sedLoopF (rand : Nat → Nat) (L : Nat) : Nat → Nat → Lit → Lit
  | 0, _, acc => acc
  | fuel + 1, k, acc =>
    if acc.length < L then
      sedLoopF rand L fuel (k + 1) (acc ++ '\\' :: 'x' :: hexEncodeByte (rand k))
    else acc

/-- The random `sedString` generated for one signature fragment `v`. -/
def scrubReplacement (rand : Nat → Nat) (v : Lit) : Lit :=
  sedLoopF rand v.length v.length 0 []

/-! ## Binary text scrubbing (`StripFile`, lines 118-176) -/

/-- The fixed `extras` token list, verbatim from the source (duplicates
included; `StripFile` deduplicates later). -/
def extras : List Lit :=
  ([ ".gopclntab", ".go.buildinfo", ".noptrdata", ".noptrbss", ".data",
     ".rodata", ".text", ".itablink", ".shstrtab", ".data", ".dynamic",
     ".dynstr", ".dynsym", ".gnu.version_r", ".gopclntab", ".got.plt",
     ".init_array", ".interp", ".itablink", ".rela.dyn", ".rela.plt",
     ".tbss", ".plt", ".init",
     "name", "runtime", "command", "cmd",
     "ptr", "process", "unicode", "main",
     "path", "get", "reflect", "context",
     "debug", "fmt", "sync", "sort",
     "size", "heap", "fatal", "call",
     "fixed", "slice", "bit", "file",
     "read", "write", "buffer", "encrypt",
     "decrypt", "hash", "state",
     "external", "internal", "float",
     "env", "trace", "pid" ] : List String).map String.toList

/-- The deduplicated `removeStrings` token list: `extras`, then the import
identifiers of the launcher source (`ListImportsFromFile`, an external
collaborator, abstracted as the parameter `importsList`), then the launcher
file name itself. -/
def removeStrings (importsList : List Lit) (launcherFile : Lit) : List Lit :=
  Unique (extras ++ importsList ++ [launcherFile])

/-- The text-scrubbing loop of `StripFile`: for each token, draw ONE fresh
filler string (`gen n` models the `GenerateNullString(len(remove))` call,
one counter index per loop iteration) and replace every occurrence of the
token and of its `strings.Title` variant by that same filler.  The second
component counts the filler draws made. -/
def stripScrubSt (gen : Nat → Lit) : List Lit → Lit × Nat → Lit × Nat
  | [], st => st
  | t :: ts, (cur, n) =>
    stripScrubSt gen ts
      (replaceAll (goTitle t) (gen n) (replaceAll t (gen n) cur), n + 1)

/-- The whole manual-stripping phase of `StripFile` on the binary text
`input` (the part after the external `strip` invocation succeeded). -/
def stripFileScrub (gen : Nat → Lit) (importsList : List Lit)
    (launcherFile : Lit) (input : Lit) : Lit × Nat :=
  stripScrubSt gen (removeStrings importsList launcherFile) (input, 0)

/-! ## Core lemmas about `replaceAll`

The replacement strings the pipeline substitutes (typosquat names,
`accessor()` calls, random fillers) share no character with the tokens being
replaced; under that disjointness, a replaced token is gone for good and a
replacement pass for one token never manufactures an occurrence of
another. -/

theorem prefix_of_replaceAllF (pat rep : Lit) (hrep : rep ≠ []) :
    ∀ n s q, s.length ≤ n → (∀ c ∈ q, c ∉ rep) →
      q <+: replaceAllF pat rep n s → q <+: s := by
  intro n
  induction n with
  | zero =>
    intro s q hs _ hq
    have : s = [] := List.eq_nil_of_length_eq_zero (Nat.le_zero.mp hs)
    subst this
    simpa only [replaceAllF] using hq
  | succ n ih =>
    intro s q hs hqc hq
    match s with
    | [] => simpa only [replaceAllF] using hq
    | c :: rest =>
      simp only [replaceAllF] at hq
      split at hq
      · -- replaced here: `q` would have to start inside `rep`, so `q = []`
        match q, rep, hrep with
        | [], _, _ => exact List.nil_prefix
        | a :: q', r0 :: rep', _ =>
          rw [List.cons_append] at hq
          obtain ⟨har, -⟩ := List.cons_prefix_cons.mp hq
          exact absurd (har ▸ List.mem_cons_self r0 rep')
            (hqc a (List.mem_cons_self a q'))
      · match q with
        | [] => exact List.nil_prefix
        | a :: q' =>
          obtain ⟨hac, hq'⟩ := List.cons_prefix_cons.mp hq
          have hrest : q' <+: rest := by
            refine ih rest q' ?_ (fun c hc => hqc c (List.mem_cons_of_mem a hc)) hq'
            simpa using hs
          exact List.cons_prefix_cons.mpr ⟨hac, hrest⟩

theorem infix_append_drop (tok : Lit) (htok : tok ≠ []) :
    ∀ rep R, (∀ c ∈ tok, c ∉ rep) → tok <:+: rep ++ R → tok <:+: R := by
  intro rep
  induction rep with
  | nil => intro R _ h; simpa using h
  | cons r0 rep' ih =>
    intro R hd h
    rw [List.cons_append] at h
    rcases List.infix_cons_iff.mp h with hpre | hinf
    · match tok, htok with
      | t0 :: tok', _ =>
        obtain ⟨rfl, -⟩ := List.cons_prefix_cons.mp hpre
        exact absurd (List.mem_cons_self t0 rep')
          (hd t0 (List.mem_cons_self t0 tok'))
    · exact ih R (fun c hc hmem => hd c hc (List.mem_cons_of_mem r0 hmem)) hinf

theorem replaceAllF_not_infix_self (pat rep : Lit) (hpat : pat ≠ []) (hrep : rep ≠ [])
    (hd : ∀ c ∈ rep, c ∉ pat) :
    ∀ n s, s.length ≤ n → ¬ pat <:+: replaceAllF pat rep n s := by
  have hd' : ∀ c ∈ pat, c ∉ rep := fun c hc hcr => hd c hcr hc
  intro n
  induction n with
  | zero =>
    intro s hs hinf
    have : s = [] := List.eq_nil_of_length_eq_zero (Nat.le_zero.mp hs)
    subst this
    simp only [replaceAllF] at hinf
    exact hpat (List.eq_nil_of_infix_nil hinf)
  | succ n ih =>
    intro s hs hinf
    match s with
    | [] =>
      simp only [replaceAllF] at hinf
      exact hpat (List.eq_nil_of_infix_nil hinf)
    | c :: rest =>
      simp only [replaceAllF] at hinf
      split at hinf
      · rename_i hcond
        have h1 : pat <:+: replaceAllF pat rep n ((c :: rest).drop pat.length) :=
          infix_append_drop pat hpat rep _ hd' hinf
        have hlen : ((c :: rest).drop pat.length).length ≤ n := by
          have : 0 < pat.length := List.length_pos.mpr hcond.1
          simp only [List.length_drop, List.length_cons]
          simp only [List.length_cons] at hs
          omega
        exact ih _ hlen h1
      · rename_i hcond
        rcases List.infix_cons_iff.mp hinf with hpre | htail
        · match pat, hpat with
          | p0 :: pat', _ =>
            obtain ⟨rfl, hq'⟩ := List.cons_prefix_cons.mp hpre
            have : pat' <+: rest := by
              refine prefix_of_replaceAllF _ rep hrep n rest pat' (by simpa using hs) ?_ hq'
              exact fun c hc => hd' c (List.mem_cons_of_mem p0 hc)
            have : (p0 :: pat').isPrefixOf (p0 :: rest) = true :=
              List.isPrefixOf_iff_prefix.mpr (List.cons_prefix_cons.mpr ⟨rfl, this⟩)
            exact hcond ⟨List.cons_ne_nil p0 pat', this⟩
        · exact ih rest (by simpa using hs) htail

theorem replaceAllF_preserves_not_infix (pat rep tok : Lit) (htok : tok ≠ [])
    (hrep : rep ≠ []) (hd : ∀ c ∈ rep, c ∉ tok) :
    ∀ n s, s.length ≤ n → ¬ tok <:+: s → ¬ tok <:+: replaceAllF pat rep n s := by
  have hd' : ∀ c ∈ tok, c ∉ rep := fun c hc hcr => hd c hcr hc
  intro n
  induction n with
  | zero =>
    intro s hs hns hinf
    have : s = [] := List.eq_nil_of_length_eq_zero (Nat.le_zero.mp hs)
    subst this
    simp only [replaceAllF] at hinf
    exact hns hinf
  | succ n ih =>
    intro s hs hns hinf
    match s with
    | [] =>
      simp only [replaceAllF] at hinf
      exact hns hinf
    | c :: rest =>
      simp only [replaceAllF] at hinf
      split at hinf
      · rename_i hcond
        have h1 : tok <:+: replaceAllF pat rep n ((c :: rest).drop pat.length) :=
          infix_append_drop tok htok rep _ hd' hinf
        have hlen : ((c :: rest).drop pat.length).length ≤ n := by
          have : 0 < pat.length := List.length_pos.mpr hcond.1
          simp only [List.length_drop, List.length_cons]
          simp only [List.length_cons] at hs
          omega
        have hns' : ¬ tok <:+: (c :: rest).drop pat.length := fun hx =>
          hns (hx.trans (List.drop_suffix pat.length (c :: rest)).isInfix)
        exact ih _ hlen hns' h1
      · rcases List.infix_cons_iff.mp hinf with hpre | htail
        · match tok, htok with
          | t0 :: tok', _ =>
            obtain ⟨rfl, hq'⟩ := List.cons_prefix_cons.mp hpre
            have hpr : tok' <+: rest := by
              refine prefix_of_replaceAllF pat rep hrep n rest tok' (by simpa using hs) ?_ hq'
              exact fun c hc => hd' c (List.mem_cons_of_mem t0 hc)
            exact hns (List.cons_prefix_cons.mpr ⟨rfl, hpr⟩).isInfix
        · have hns' : ¬ tok <:+: rest := fun hx =>
            hns (hx.trans (List.suffix_cons c rest).isInfix)
          exact ih rest (by simpa using hs) hns' htail

theorem replaceAllF_of_not_infix (pat rep : Lit) :
    ∀ n s, s.length ≤ n → ¬ pat <:+: s → replaceAllF pat rep n s = s := by
  intro n
  induction n with
  | zero =>
    intro s hs _
    have : s = [] := List.eq_nil_of_length_eq_zero (Nat.le_zero.mp hs)
    subst this
    simp only [replaceAllF]
  | succ n ih =>
    intro s hs hns
    match s with
    | [] => simp only [replaceAllF]
    | c :: rest =>
      simp only [replaceAllF]
      rw [if_neg, ih rest (by simpa using hs)
        (fun hx => hns (hx.trans (List.suffix_cons c rest).isInfix))]
      intro hcond
      exact hns ((List.isPrefixOf_iff_prefix.mp hcond.2).isInfix)

/-- No occurrence of the pattern remains after a replacement pass whose
replacement string is non-empty and character-disjoint from the pattern. -/
theorem replaceAll_elim (pat rep : Lit) (s : Lit) (hpat : pat ≠ []) (hrep : rep ≠ [])
    (hd : ∀ c ∈ rep, c ∉ pat) : ¬ pat <:+: replaceAll pat rep s :=
  replaceAllF_not_infix_self pat rep hpat hrep hd s.length s le_rfl

/-- A replacement pass whose replacement string is non-empty and
character-disjoint from `tok` cannot manufacture an occurrence of `tok`. -/
theorem replaceAll_preserve (pat rep tok : Lit) (s : Lit) (htok : tok ≠ [])
    (hrep : rep ≠ []) (hd : ∀ c ∈ rep, c ∉ tok) (hns : ¬ tok <:+: s) :
    ¬ tok <:+: replaceAll pat rep s :=
  replaceAllF_preserves_not_infix pat rep tok htok hrep hd s.length s le_rfl hns

/-- A replacement pass is the identity when its pattern does not occur. -/
theorem replaceAll_of_not_infix (pat rep s : Lit) (h : ¬ pat <:+: s) :
    replaceAll pat rep s = s :=
  replaceAllF_of_not_infix pat rep s.length s le_rfl h

/-! ## Lemmas about `Unique` and `firstIdx` -/

theorem mem_UniqueF {α : Type} [DecidableEq α] :
    ∀ (n : Nat) (l : List α), l.length ≤ n → ∀ x, (x ∈ UniqueF n l ↔ x ∈ l) := by
  intro n
  induction n with
  | zero =>
    intro l hl x
    have : l = [] := List.eq_nil_of_length_eq_zero (Nat.le_zero.mp hl)
    subst this
    simp only [UniqueF]
  | succ n ih =>
    intro l hl x
    match l with
    | [] => simp only [UniqueF]
    | a :: xs =>
      have hlen : (xs.filter (fun y => decide (y ≠ a))).length ≤ n := by
        have := List.length_filter_le (fun y => decide (y ≠ a)) xs
        simp only [List.length_cons] at hl
        omega
      simp only [UniqueF]
      constructor
      · intro h
        rcases List.mem_cons.mp h with rfl | h2
        · exact List.mem_cons_self x xs
        · exact List.mem_cons_of_mem a (List.mem_of_mem_filter ((ih _ hlen x).mp h2))
      · intro h
        rcases List.mem_cons.mp h with rfl | h2
        · exact List.mem_cons_self x _
        · by_cases hx : x = a
          · rw [hx]; exact List.mem_cons_self a _
          · refine List.mem_cons_of_mem a ((ih _ hlen x).mpr ?_)
            exact List.mem_filter.mpr ⟨h2, by simpa using hx⟩

theorem mem_Unique {α : Type} [DecidableEq α] (l : List α) (x : α) :
    x ∈ Unique l ↔ x ∈ l :=
  mem_UniqueF l.length l le_rfl x

theorem nodup_UniqueF {α : Type} [DecidableEq α] :
    ∀ (n : Nat) (l : List α), l.length ≤ n → (UniqueF n l).Nodup := by
  intro n
  induction n with
  | zero =>
    intro l hl
    have : l = [] := List.eq_nil_of_length_eq_zero (Nat.le_zero.mp hl)
    subst this
    simp only [UniqueF]
    exact List.nodup_nil
  | succ n ih =>
    intro l hl
    match l with
    | [] => simp only [UniqueF]; exact List.nodup_nil
    | a :: xs =>
      have hlen : (xs.filter (fun y => decide (y ≠ a))).length ≤ n := by
        have := List.length_filter_le (fun y => decide (y ≠ a)) xs
        simp only [List.length_cons] at hl
        omega
      simp only [UniqueF]
      refine List.nodup_cons.mpr ⟨fun hmem => ?_, ih _ hlen⟩
      have h1 := (mem_UniqueF n _ hlen a).mp hmem
      have h2 := List.of_mem_filter h1
      simp at h2

theorem nodup_Unique {α : Type} [DecidableEq α] (l : List α) : (Unique l).Nodup :=
  nodup_UniqueF l.length l le_rfl

theorem UniqueF_eq_self_of_nodup {α : Type} [DecidableEq α] :
    ∀ (n : Nat) (l : List α), l.length ≤ n → l.Nodup → UniqueF n l = l := by
  intro n
  induction n with
  | zero =>
    intro l hl _
    have : l = [] := List.eq_nil_of_length_eq_zero (Nat.le_zero.mp hl)
    subst this
    simp only [UniqueF]
  | succ n ih =>
    intro l hl hnd
    match l with
    | [] => simp only [UniqueF]
    | a :: xs =>
      obtain ⟨hna, hxs⟩ := List.nodup_cons.mp hnd
      have hf : xs.filter (fun y => decide (y ≠ a)) = xs := by
        refine List.filter_eq_self.mpr fun y hy => ?_
        simp only [decide_eq_true_eq]
        exact fun h => hna (h ▸ hy)
      simp only [UniqueF, hf]
      rw [ih xs (by simp only [List.length_cons] at hl; omega) hxs]

theorem Unique_eq_self_of_nodup {α : Type} [DecidableEq α] (l : List α)
    (h : l.Nodup) : Unique l = l :=
  UniqueF_eq_self_of_nodup l.length l le_rfl h

theorem firstIdx_none_iff (pat : Lit) : ∀ s, firstIdx pat s = none ↔ ¬ pat <:+: s := by
  intro s
  induction s with
  | nil =>
    rw [firstIdx]
    constructor
    · intro h hinf
      have : pat = [] := List.eq_nil_of_infix_nil hinf
      subst this
      simp [List.isPrefixOf_iff_prefix] at h
    · intro h
      rw [if_neg]
      intro hp
      exact h (List.isPrefixOf_iff_prefix.mp hp).isInfix
  | cons c rest ih =>
    rw [firstIdx]
    constructor
    · intro h hinf
      split at h
      · exact Option.noConfusion h
      · rename_i hnp
        rcases List.infix_cons_iff.mp hinf with hpre | htail
        · exact hnp (List.isPrefixOf_iff_prefix.mpr hpre)
        · have := Option.map_eq_none'.mp h
          exact (ih.mp this) htail
    · intro h
      rw [if_neg, Option.map_eq_none']
      · exact ih.mpr fun hx => h (hx.trans (List.suffix_cons c rest).isInfix)
      · intro hp
        exact h (List.isPrefixOf_iff_prefix.mp hp).isInfix

theorem containsSub_iff (s pat : Lit) : containsSub s pat = true ↔ pat <:+: s := by
  rw [containsSub, Option.isSome_iff_ne_none]
  constructor
  · intro h
    by_contra hn
    exact h ((firstIdx_none_iff pat s).mpr hn)
  · intro h hn
    exact (firstIdx_none_iff pat s).mp hn h

/-! ## The replacement loop over the registry -/

theorem replaceLoop_preserve (tok : Lit) (htok : tok ≠ []) :
    ∀ (R : Registry) (b : Lit),
      (∀ e ∈ R, entryRep e ≠ [] ∧ ∀ c ∈ entryRep e, c ∉ tok) →
      ¬ tok <:+: b → ¬ tok <:+: replaceLoop R b := by
  intro R
  induction R with
  | nil => intro b _ h; rw [replaceLoop]; exact h
  | cons e es ih =>
    intro b hR hnb
    rw [replaceLoop]
    refine ih _ (fun e' he' => hR e' (List.mem_cons_of_mem e he')) ?_
    obtain ⟨hne, hdisj⟩ := hR e (List.mem_cons_self e es)
    exact replaceAll_preserve e.rawToken (entryRep e) tok b htok hne hdisj hnb

theorem replaceLoop_elim :
    ∀ (R : Registry) (b : Lit) (e : SecretEntry),
      e ∈ R → e.rawToken ≠ [] →
      (∀ e' ∈ R, entryRep e' ≠ [] ∧ ∀ c ∈ entryRep e', c ∉ e.rawToken) →
      ¬ e.rawToken <:+: replaceLoop R b := by
  intro R
  induction R with
  | nil => intro b e he; exact absurd he (List.not_mem_nil e)
  | cons e0 es ih =>
    intro b e he hne hR
    rcases List.mem_cons.mp he with rfl | hmem
    · rw [replaceLoop]
      refine replaceLoop_preserve _ hne es _
        (fun e' h => hR e' (List.mem_cons_of_mem e h)) ?_
      obtain ⟨h1, h2⟩ := hR e (List.mem_cons_self e es)
      exact replaceAll_elim _ _ _ hne h1 h2
    · rw [replaceLoop]
      exact ih _ e hmem hne (fun e' h => hR e' (List.mem_cons_of_mem e0 h))

/-! ## Claim C1 -/

/-- **C1, amended.**  In the replacement phase of `ObfuscateStrings`, each
registry entry's rawToken itself is globally substituted (by `accessorName()`
for a normal entry; by the bare plaintext for a `leave` entry), so that —
whenever the substituted strings are non-empty and share no character with
the rawToken, as holds for the tokens the pipeline produces — no occurrence
of the rawToken of a non-`leave` entry survives in the rewritten body.  The
code performs NO substitution of the capitalised (`strings.Title`) variant
of a rawToken; a capitalised variant present in the body survives (see the
counterexample `obfuscateStrings_capitalized_variant_survives`). -/
theorem replaceLoop_rawToken_eliminated (R : Registry) (b : Lit) (e : SecretEntry)
    (he : e ∈ R) (hleave : containsSub e.accessor leaveTok = false)
    (hne : e.rawToken ≠ [])
    (hreps : ∀ e' ∈ R, entryRep e' ≠ [] ∧ ∀ c ∈ entryRep e', c ∉ e.rawToken) :
    ¬ e.rawToken <:+: replaceLoop R b :=
  replaceLoop_elim R b e he hne hreps

/-- Registry used by the witness of `replaceLoop_rawToken_eliminated`. -/
def c1wReg : Registry := [⟨"\"ab\"".toList, "ab".toList, ['N']⟩]

/-- Witness: a concrete registry with the single entry for `"ab"` and the
body `x"ab"y`; the theorem applies and the rawToken is gone. -/
theorem replaceLoop_rawToken_eliminated_witness :
    ¬ "\"ab\"".toList <:+: replaceLoop c1wReg "x\"ab\"y".toList :=
  replaceLoop_rawToken_eliminated c1wReg "x\"ab\"y".toList
    ⟨"\"ab\"".toList, "ab".toList, ['N']⟩ (by decide) (by decide) (by decide)
    (by decide)

/-- Generator for the C1 counterexample: a fixed admissible typosquat name
(128 runes of `O`). -/
def c1gen : Nat → Lit := fun _ => List.replicate 128 'O'

/-- Code-emitting collaborator for the C1 counterexample. -/
def c1mk : Lit → Lit → Lit := fun _ _ => []

/-- Counterexample input: an import header followed by a body holding the
literal `"abc"`, a skipped literal `"\"` (backslash), and — straddling the
skipped literal's closing quote — the capitalised variant `"Abc"`. -/
def c1input : Lit := "import (x)\"abc\" x\"\\\"Abc\" q".toList

/-- The registered rawToken of the counterexample. -/
def c1tok : Lit := "\"abc\"".toList

/-- The run of `ObfuscateStrings` on the counterexample input. -/
def c1res : Lit × Registry × Nat :=
  (ObfuscateStrings c1gen c1mk [] 0 c1input).getD ([], [], 0)

set_option maxRecDepth 40000 in
/-- **C1, counterexample.**  After `ObfuscateStrings` runs on `c1input`,
the token `"abc"` is registered in the Secrets registry, yet the
capitalised variant `"Abc"` of that rawToken still occurs in the output:
the claim that every occurrence of the capitalised variant of a registered
rawToken is replaced is false. -/
theorem obfuscateStrings_capitalized_variant_survives :
    (ObfuscateStrings c1gen c1mk [] 0 c1input).isSome = true ∧
    lookupSec c1res.2.1 c1tok ≠ none ∧
    containsSub c1res.1 (goTitle c1tok) = true := by
  refine ⟨by decide, by decide, by decide⟩

/-! ## Claim C8 -/

theorem varsFold_preserve (tok : Lit) (htok : tok ≠ []) (gen : Nat → Lit)
    (hgen : ∀ n, gen n ≠ [] ∧ ∀ c ∈ gen n, c ∉ tok) :
    ∀ ws i s, ¬ tok <:+: s → ¬ tok <:+: obfuscateVarsFold gen ws i s := by
  intro ws
  induction ws with
  | nil => intro i s h; rw [obfuscateVarsFold]; exact h
  | cons w ws' ih =>
    intro i s hns
    rw [obfuscateVarsFold]
    exact ih (i + 1) _
      (replaceAll_preserve w (gen i) tok s htok (hgen i).1 (hgen i).2 hns)

theorem varsFold_elim (tok : Lit) (htok : tok ≠ []) (gen : Nat → Lit)
    (hgen : ∀ n, gen n ≠ [] ∧ ∀ c ∈ gen n, c ∉ tok) :
    ∀ ws i s, tok ∈ ws → ¬ tok <:+: obfuscateVarsFold gen ws i s := by
  intro ws
  induction ws with
  | nil => intro i s h; exact absurd h (List.not_mem_nil tok)
  | cons w ws' ih =>
    intro i s hmem
    rcases List.mem_cons.mp hmem with rfl | h2
    · rw [obfuscateVarsFold]
      exact varsFold_preserve tok htok gen hgen ws' (i + 1) _
        (replaceAll_elim tok (gen i) s htok (hgen i).1 (hgen i).2)
    · rw [obfuscateVarsFold]
      exact ih (i + 1) _ h2

/-- **C8.**  For any source in which both `obFoo` and `obFooBar` are
discovered as tagged tokens, and any admissible run of the typosquat name
generator, `ObfuscateFuncVars` leaves no occurrence of the literal text
`obFoo` or `obFooBar` in its output; moreover `obFoo` occurs exactly once
in the processed token sequence, so the single `ReplaceAll` pass for it
substitutes one and the same generated name at every occurrence. -/
theorem obfuscateFuncVars_prefix_tokens_eliminated (gen : Nat → Lit) (input : Lit)
    (hgen : ∀ n, IsTyposquatName (gen n))
    (hfoo : "obFoo".toList ∈ obDiscover input)
    (hbar : "obFooBar".toList ∈ obDiscover input) :
    ¬ "obFoo".toList <:+: ObfuscateFuncVars gen input ∧
    ¬ "obFooBar".toList <:+: ObfuscateFuncVars gen input ∧
    "obFoo".toList ∈ obProcList input ∧ (obProcList input).Nodup := by
  have hmix : ∀ c ∈ mixedRunes, c ∉ ("obFoo".toList : Lit) := by decide
  have hgen' : ∀ n, gen n ≠ [] ∧ ∀ c ∈ gen n, c ∉ ("obFoo".toList : Lit) := by
    intro n
    obtain ⟨hlen, hal, -⟩ := hgen n
    constructor
    · intro hnil
      rw [hnil] at hlen
      exact absurd hlen (by decide)
    · exact fun c hc => hmix c (hal c hc)
  have hfoo' : "obFoo".toList ∈ obProcList input := by
    rw [obProcList, mem_Unique, ReverseStringArray, List.mem_reverse]
    exact hfoo
  have h1 : ¬ "obFoo".toList <:+: ObfuscateFuncVars gen input := by
    rw [ObfuscateFuncVars]
    exact varsFold_elim _ (by decide) gen hgen' _ 0 input hfoo'
  refine ⟨h1, fun hinf => h1 ?_, hfoo', nodup_Unique _⟩
  exact List.IsInfix.trans (by decide) hinf

/-- Generator used by the C8 witness. -/
def c8gen : Nat → Lit := fun _ => List.replicate 128 'O'

/-- Input used by the C8 witness: both tagged tokens present. -/
def c8input : Lit := "obFoo obFooBar".toList

/-- Witness for C8 at a concrete input and generator. -/
theorem obfuscateFuncVars_prefix_tokens_eliminated_witness :
    ¬ "obFoo".toList <:+: ObfuscateFuncVars c8gen c8input ∧
    ¬ "obFooBar".toList <:+: ObfuscateFuncVars c8gen c8input ∧
    "obFoo".toList ∈ obProcList c8input ∧ (obProcList c8input).Nodup := by
  refine obfuscateFuncVars_prefix_tokens_eliminated c8gen c8input ?_ (by decide) (by decide)
  intro n
  refine ⟨by simp [c8gen], fun c hc => ?_, fun c hc => ?_⟩
  · rw [c8gen] at hc
    rw [List.eq_of_mem_replicate hc]
    decide
  · rw [c8gen] at hc
    rw [List.eq_of_mem_replicate (List.mem_of_mem_take hc)]
    decide

/-! ## Claim C2 -/

theorem sedLoopF_length (rand : Nat → Nat) (L : Nat) :
    ∀ (m fuel k : Nat) (acc : Lit), acc.length ≤ L → L - acc.length = 4 * m →
      m ≤ fuel → (sedLoopF rand L fuel k acc).length = L := by
  intro m
  induction m with
  | zero =>
    intro fuel k acc h1 h2 _
    have hacc : acc.length = L := by omega
    cases fuel with
    | zero => simpa only [sedLoopF] using hacc
    | succ f =>
      simp only [sedLoopF]
      rw [if_neg (by omega)]
      exact hacc
  | succ m ih =>
    intro fuel k acc h1 h2 hf
    cases fuel with
    | zero => omega
    | succ f =>
      have hstep : (acc ++ '\\' :: 'x' :: hexEncodeByte (rand k)).length =
          acc.length + 4 := by
        simp [hexEncodeByte]
      simp only [sedLoopF]
      rw [if_pos (by omega)]
      refine ih f (k + 1) _ (by omega) (by omega) (by omega)

/-- **C2.**  For every fixed UPX signature fragment, and every stream of
random bytes, the replacement string built by `StripUPXHeaders` has exactly
the length of the fragment — each loop iteration appends one `\xNN` unit of
four runes for one random byte, and every fragment length is a multiple of
four — so the in-place `sed` substitution preserves the binary's byte
length. -/
theorem stripUPX_replacement_length_eq (rand : Nat → Nat) (v : Lit)
    (hv : v ∈ upxHeader) :
    (scrubReplacement rand v).length = v.length ∧ v.length % 4 = 0 := by
  have hmod : ∀ u ∈ upxHeader, u.length % 4 = 0 := by decide
  have h4 := hmod v hv
  constructor
  · rw [scrubReplacement]
    refine sedLoopF_length rand v.length (v.length / 4) v.length 0 [] (by simp) ?_ ?_
    · simp only [List.length_nil, Nat.sub_zero]
      omega
    · omega
  · exact h4

/-- Fragment used by the C2 witness (the trailing `UPX!` marker). -/
def c2frag : Lit := "\\x55\\x50\\x58\\x21".toList

/-- Witness for C2 at a concrete fragment and byte stream. -/
theorem stripUPX_replacement_length_eq_witness :
    (scrubReplacement (fun _ => 0) c2frag).length = c2frag.length ∧
    c2frag.length % 4 = 0 :=
  stripUPX_replacement_length_eq (fun _ => 0) c2frag (by decide)

/-! ## Claim C3 -/

theorem antiDebugAux_get (shuffle : Nat → List Lit) :
    ∀ (lines : List Lit) (k i : Nat),
      (antiDebugAux shuffle k lines).get? i = (lines.get? i).map
        (fun v => if containsSub v obCheckMarker then goLine (shuffle (k + i)) else v) := by
  intro lines
  induction lines with
  | nil => intro k i; simp [antiDebugAux]
  | cons v rest ih =>
    intro k i
    cases i with
    | zero => simp [antiDebugAux]
    | succ j =>
      simp only [antiDebugAux, List.get?_cons_succ]
      rw [ih (k + 1) j]
      have : k + 1 + j = k + (j + 1) := by omega
      rw [this]

/-- **C3.**  For every input line list, every line position, and every
admissible behaviour of `ShuffleSlice` (a permutation of the fixed
eight-routine set — `ShuffleSlice` lives outside this file and is modelled
from the specification), the rewriting loop of `GenerateRandomAntiDebug`
maps each line containing the `// OB_CHECK` marker to the concatenation of
one `go …;` launch statement per routine of an independently shuffled copy
of `randomChecks` — exactly eight statements, each routine exactly once —
and leaves every other line unchanged in its original position. -/
theorem antiDebug_marker_replacement (shuffle : Nat → List Lit)
    (hperm : ∀ j, (shuffle j).Perm randomChecks) (lines : List Lit) (i : Nat) :
    ((antiDebugAux shuffle 0 lines).get? i = (lines.get? i).map
      (fun v => if containsSub v obCheckMarker then goLine (shuffle i) else v)) ∧
    randomChecks.length = 8 ∧
    (shuffle i).length = 8 ∧
    (shuffle i).Nodup ∧
    (∀ r, r ∈ shuffle i ↔ r ∈ randomChecks) := by
  refine ⟨?_, by decide, ?_, ?_, fun r => (hperm i).mem_iff⟩
  · have h := antiDebugAux_get shuffle lines 0 i
    simpa using h
  · rw [(hperm i).length_eq]
    decide
  · exact ((hperm i).nodup_iff).mpr (by decide)

/-- Shuffle used by the C3 witness (the identity permutation). -/
def c3shuffle : Nat → List Lit := fun _ => randomChecks

/-- Lines used by the C3 witness: one plain line, one marker line. -/
def c3lines : List Lit := ["x".toList, "a // OB_CHECK b".toList]

/-- Witness for C3 at a concrete shuffle, line list and position: the
marker line is rewritten to the eight launch statements, and the plain
line at position 0 passes through unchanged. -/
theorem antiDebug_marker_replacement_witness :
    (antiDebugAux c3shuffle 0 c3lines).get? 1 = some (goLine (c3shuffle 1)) ∧
    (antiDebugAux c3shuffle 0 c3lines).get? 0 = some "x".toList ∧
    randomChecks.length = 8 ∧
    (c3shuffle 1).length = 8 ∧
    (c3shuffle 1).Nodup ∧
    ("obParentDetect()".toList ∈ c3shuffle 1 ↔
      "obParentDetect()".toList ∈ randomChecks) := by
  have h1 := antiDebug_marker_replacement c3shuffle (fun _ => List.Perm.refl _) c3lines 1
  have h0 := antiDebug_marker_replacement c3shuffle (fun _ => List.Perm.refl _) c3lines 0
  exact ⟨h1.1.trans (by rfl), h0.1.trans (by rfl), h1.2.1, h1.2.2.1, h1.2.2.2.1,
    h1.2.2.2.2 "obParentDetect()".toList⟩

/-! ## Claim C4 -/

/-- **C4, amended.**  `ObfuscateFuncVars` reverses the discovered token
list first and only then deduplicates it keeping first occurrences, i.e. it
keeps each distinct token's LAST discovery occurrence; the processed
sequence is duplicate-free, contains exactly the discovered tokens, and
coincides with the reverse of the discovery order whenever no token is
discovered twice.  (The claim's order — deduplicate first, then reverse —
differs when a token recurs; see `obfuscateFuncVars_order_cex`.) -/
theorem obProcList_spec (input : Lit) :
    (obProcList input).Nodup ∧
    (∀ t, t ∈ obProcList input ↔ t ∈ obDiscover input) ∧
    ((obDiscover input).Nodup → obProcList input = (obDiscover input).reverse) := by
  refine ⟨nodup_Unique _, fun t => ?_, fun hnd => ?_⟩
  · rw [obProcList, mem_Unique, ReverseStringArray, List.mem_reverse]
  · rw [obProcList, ReverseStringArray,
      Unique_eq_self_of_nodup _ (by rwa [List.nodup_reverse])]

/-- Input used by the C4 witness. -/
def c4win : Lit := "obX obY".toList

/-- Witness for C4's amended theorem at a concrete duplicate-free input. -/
theorem obProcList_spec_witness :
    (obProcList c4win).Nodup ∧
    ("obX".toList ∈ obProcList c4win ↔ "obX".toList ∈ obDiscover c4win) ∧
    obProcList c4win = (obDiscover c4win).reverse :=
  ⟨(obProcList_spec c4win).1, (obProcList_spec c4win).2.1 "obX".toList,
    (obProcList_spec c4win).2.2 (by decide)⟩

/-- Generator for the C4 counterexample: distinct admissible typosquat
names for the first two draws. -/
def c4gen : Nat → Lit := fun n => List.replicate 128 (if n = 0 then 'O' else 'Ó')

/-- Counterexample input for the processing order: `obA` is discovered,
then `obB`, then `obA` again. -/
def c4in1 : Lit := "obA obB obA".toList

/-- Counterexample input for the output: the prefix token pair with the
longer token recurring after the shorter one. -/
def c4in2 : Lit := "obFooBar obFoo obFooBar".toList

set_option maxRecDepth 80000 in
/-- **C4, counterexample.**  On `obA obB obA` the code processes
`[obA, obB]` (reverse first, then deduplicate) while the claim prescribes
`[obB, obA]` (deduplicate first, then reverse); on
`obFooBar obFoo obFooBar` the two orders even produce different output
text. -/
theorem obfuscateFuncVars_order_cex :
    obProcList c4in1 ≠ specProcList c4in1 ∧
    ObfuscateFuncVars c4gen c4in2 ≠ specObfuscateFuncVars c4gen c4in2 := by
  refine ⟨by decide, by decide⟩

/-! ## Claim C7 -/

theorem stripScrubSt_draws (gen : Nat → Lit) :
    ∀ (tokens : List Lit) (input : Lit) (n0 : Nat),
      (stripScrubSt gen tokens (input, n0)).2 = n0 + tokens.length := by
  intro tokens
  induction tokens with
  | nil => intro input n0; simp [stripScrubSt]
  | cons t ts ih =>
    intro input n0
    rw [stripScrubSt, ih _ (n0 + 1)]
    simp only [List.length_cons]
    omega

/-- **C7, amended.**  The text-scrubbing loop of `StripFile` draws exactly
one random filler per RemovalSet token — the draw counter advances by the
number of tokens, for every input text, independent of how many occurrences
each token has — and for a single token the whole step is one
`ReplaceAll` of the token and one of its Title variant, both with that same
single filler `gen n0`. -/
theorem stripScrub_one_draw_per_token (gen : Nat → Lit) (tokens : List Lit)
    (input : Lit) (n0 : Nat) :
    (stripScrubSt gen tokens (input, n0)).2 = n0 + tokens.length ∧
    ∀ t, stripScrubSt gen [t] (input, n0) =
      (replaceAll (goTitle t) (gen n0) (replaceAll t (gen n0) input), n0 + 1) :=
  ⟨stripScrubSt_draws gen tokens input n0, fun _ => rfl⟩

/-- Generator for the C7 counterexample: pairwise distinct one-rune fillers
(`GenerateNullString` is outside this file; the specification constrains it
only to a freshly generated random filler string). -/
def c7gen : Nat → Lit := fun n => [Char.ofNat (100 + n)]

/-- The RemovalSet of the C7 counterexample: the fixed `extras`, no
imports, launcher file name `ln.go`. -/
def c7tokens : List Lit := removeStrings [] "ln.go".toList

/-- The scrub of the two-occurrence text `env env`. -/
def c7out : Lit × Nat := stripScrubSt c7gen c7tokens ("env env".toList, 0)

set_option maxRecDepth 80000 in
/-- **C7, counterexample.**  Scrubbing `env env` (two occurrences of the
RemovalSet token `env`) draws exactly one filler per token — not one per
occurrence — and both occurrences of `env` receive the IDENTICAL filler
`c7gen i` (where `i` is the loop index of `env`), even though the generator
had distinct fresh fillers available at every draw: no random outcome can
give two occurrences of the same token different fillers. -/
theorem stripFile_filler_per_token_cex :
    c7out.2 = c7tokens.length ∧
    c7out.1 = c7gen (c7tokens.indexOf "env".toList) ++ ' ' ::
      c7gen (c7tokens.indexOf "env".toList) ∧
    c7gen 0 ≠ c7gen 1 := by
  refine ⟨by decide, by decide, by decide⟩

/-! ## Lemmas about the registry and registration -/

/-- The rawToken keys of the registry, in registry order. -/
def regKeys (reg : Registry) : List Lit := reg.map (fun e => e.rawToken)

theorem lookupSec_eq_none_iff (reg : Registry) (k : Lit) :
    lookupSec reg k = none ↔ k ∉ regKeys reg := by
  induction reg with
  | nil => simp [lookupSec, regKeys]
  | cons e es ih =>
    rw [lookupSec]
    constructor
    · intro h
      split at h
      · exact Option.noConfusion h
      · rename_i hne
        intro hmem
        rcases List.mem_cons.mp hmem with heq | hmem2
        · exact hne heq.symm
        · exact (ih.mp h) hmem2
    · intro h
      rw [if_neg, ih.mpr]
      · intro hmem
        exact h (List.mem_cons_of_mem _ hmem)
      · intro heq
        exact h (heq ▸ List.mem_cons_self _ _)

theorem lookupSec_append_some (reg new : Registry) (k : Lit) (v : Lit × Lit)
    (h : lookupSec reg k = some v) : lookupSec (reg ++ new) k = some v := by
  induction reg with
  | nil => rw [lookupSec] at h; exact Option.noConfusion h
  | cons e es ih =>
    rw [List.cons_append, lookupSec]
    rw [lookupSec] at h
    split at h
    · rename_i hc
      rw [if_pos hc]
      exact h
    · rename_i hc
      rw [if_neg hc]
      exact ih h

theorem lookupSec_append_none_left (reg new : Registry) (k : Lit)
    (h : lookupSec (reg ++ new) k = none) : lookupSec reg k = none := by
  rw [lookupSec_eq_none_iff] at h ⊢
  intro hmem
  refine h ?_
  rw [regKeys, List.map_append] at *
  exact List.mem_append_left _ hmem

theorem lookupSec_append_right (reg : Registry) (e : SecretEntry) (k : Lit)
    (hne : e.rawToken ≠ k) : lookupSec (reg ++ [e]) k = lookupSec reg k := by
  induction reg with
  | nil => simp [lookupSec, hne]
  | cons e0 es ih =>
    rw [List.cons_append, lookupSec, lookupSec]
    split
    · rfl
    · exact ih

/-- The registration loop only appends to the registry. -/
theorem registerWords_append (gen : Nat → Lit) :
    ∀ (ws : List Lit) (st : Registry × Nat),
      ∃ new, (registerWords gen st ws).1 = st.1 ++ new := by
  intro ws
  induction ws with
  | nil => intro st; exact ⟨[], by rw [registerWords]; simp⟩
  | cons w0 ws' ih =>
    intro st
    obtain ⟨reg, n⟩ := st
    rw [registerWords]
    split
    · cases hl : lookupSec reg w0 with
      | some v => simpa only [hl] using ih (reg, n)
      | none =>
        simp only [hl]
        obtain ⟨new, hnew⟩ := ih (reg ++ [⟨w0, (w0.drop 1).dropLast, gen n⟩], n + 1)
        refine ⟨[⟨w0, (w0.drop 1).dropLast, gen n⟩] ++ new, ?_⟩
        rw [hnew]
        simp [List.append_assoc]
    · exact ih (reg, n)

/-- The combined bookkeeping invariant of the inner registration loop:
existing entries are preserved verbatim, key uniqueness is preserved, new
entries are created only for keys that were absent, and the name counter
advances exactly once per created entry. -/
theorem registerWords_invariant (gen : Nat → Lit) :
    ∀ (ws : List Lit) (st : Registry × Nat),
      (∀ k v, lookupSec st.1 k = some v →
        lookupSec (registerWords gen st ws).1 k = some v) ∧
      ((regKeys st.1).Nodup → (regKeys (registerWords gen st ws).1).Nodup) ∧
      (∀ e ∈ (registerWords gen st ws).1,
        e ∈ st.1 ∨ lookupSec st.1 e.rawToken = none) ∧
      st.1.length ≤ (registerWords gen st ws).1.length ∧
      (registerWords gen st ws).2 =
        st.2 + ((registerWords gen st ws).1.length - st.1.length) := by
  intro ws
  induction ws with
  | nil =>
    intro st
    obtain ⟨reg, n⟩ := st
    rw [registerWords]
    exact ⟨fun k v h => h, fun h => h, fun e he => Or.inl he, le_rfl,
      by simp [Nat.sub_self]⟩
  | cons w0 ws' ih =>
    intro st
    obtain ⟨reg, n⟩ := st
    rw [registerWords]
    split
    · rename_i hg
      cases hl : lookupSec reg w0 with
      | some v => simpa only [hl] using ih (reg, n)
      | none =>
        simp only [hl]
        obtain ⟨ih1, ih2, ih3, ih4, ih5⟩ :=
          ih (reg ++ [⟨w0, (w0.drop 1).dropLast, gen n⟩], n + 1)
        have hklen :
            (reg ++ [(⟨w0, (w0.drop 1).dropLast, gen n⟩ : SecretEntry)]).length =
              reg.length + 1 := by simp
        refine ⟨fun k v h => ih1 k v (lookupSec_append_some reg _ k v h), ?_,
          fun e he => ?_, ?_, ?_⟩
        · intro hnd
          refine ih2 ?_
          rw [regKeys, List.map_append, List.nodup_append]
          refine ⟨hnd, by simp, ?_⟩
          intro a ha hb
          simp only [List.map_cons, List.map_nil, List.mem_singleton] at hb
          rw [lookupSec_eq_none_iff] at hl
          exact hl (hb ▸ ha)
        · rcases ih3 e he with hmem | hnone
          · rcases List.mem_append.mp hmem with h1 | h1
            · exact Or.inl h1
            · have he' : e = ⟨w0, (w0.drop 1).dropLast, gen n⟩ := by simpa using h1
              subst he'
              exact Or.inr hl
          · exact Or.inr (lookupSec_append_none_left reg _ _ hnone)
        · have h4 : (reg ++ [(⟨w0, (w0.drop 1).dropLast, gen n⟩ : SecretEntry)]).length ≤
              (registerWords gen
                (reg ++ [⟨w0, (w0.drop 1).dropLast, gen n⟩], n + 1) ws').1.length := ih4
          omega
        · have h4 : (reg ++ [(⟨w0, (w0.drop 1).dropLast, gen n⟩ : SecretEntry)]).length ≤
              (registerWords gen
                (reg ++ [⟨w0, (w0.drop 1).dropLast, gen n⟩], n + 1) ws').1.length := ih4
          rw [hklen] at h4 ih5
          omega
    · exact ih (reg, n)

/-- The registration loop skips every literal that is too short or holds a
backslash: the registry binding of such a literal is untouched. -/
theorem registerWords_lookup_invalid (gen : Nat → Lit) (w : Lit)
    (hw : w.length ≤ 2 ∨ w.contains '\\' = true) :
    ∀ (ws : List Lit) (st : Registry × Nat),
      lookupSec (registerWords gen st ws).1 w = lookupSec st.1 w := by
  intro ws
  induction ws with
  | nil => intro st; rw [registerWords]
  | cons w0 ws' ih =>
    intro st
    obtain ⟨reg, n⟩ := st
    rw [registerWords]
    split
    · rename_i hg
      obtain ⟨hg1, hg2⟩ := hg
      cases hl : lookupSec reg w0 with
      | some v => simpa only [hl] using ih (reg, n)
      | none =>
        simp only [hl]
        rw [ih]
        refine lookupSec_append_right reg _ w ?_
        intro heq
        have heqw : w0 = w := heq
        subst heqw
        rcases hw with h1 | h1
        · omega
        · exact hg2 h1
    · exact ih (reg, n)

/-- `registerAll` unfolded over the three tick types. -/
theorem registerAll_eq (gen : Nat → Lit) (st : Registry × Nat) (body : Lit) :
    registerAll gen st body =
      registerWords gen (registerWords gen (registerWords gen st
        (Unique (findLits backtick body))) (Unique (findLits singleQuote body)))
        (Unique (findLits '"' body)) := by
  rw [registerAll, tickTypes]
  rfl

theorem registerAll_invariant (gen : Nat → Lit) (reg : Registry) (n : Nat)
    (body : Lit) :
    (∀ k v, lookupSec reg k = some v →
      lookupSec (registerAll gen (reg, n) body).1 k = some v) ∧
    ((regKeys reg).Nodup → (regKeys (registerAll gen (reg, n) body).1).Nodup) ∧
    (∀ e ∈ (registerAll gen (reg, n) body).1,
      e ∈ reg ∨ lookupSec reg e.rawToken = none) ∧
    reg.length ≤ (registerAll gen (reg, n) body).1.length ∧
    (registerAll gen (reg, n) body).2 =
      n + ((registerAll gen (reg, n) body).1.length - reg.length) := by
  rw [registerAll_eq]
  set L1 := Unique (findLits backtick body) with hL1
  set L2 := Unique (findLits singleQuote body) with hL2
  set L3 := Unique (findLits '"' body) with hL3
  set st1 := registerWords gen (reg, n) L1 with hst1
  set st2 := registerWords gen st1 L2 with hst2
  set st3 := registerWords gen st2 L3 with hst3
  obtain ⟨a1, a2, a3, a4, a5⟩ := registerWords_invariant gen L1 (reg, n)
  obtain ⟨b1, b2, b3, b4, b5⟩ := registerWords_invariant gen L2 st1
  obtain ⟨c1, c2, c3, c4, c5⟩ := registerWords_invariant gen L3 st2
  rw [← hst1] at a1 a2 a3 a4 a5
  rw [← hst2] at b1 b2 b3 b4 b5
  rw [← hst3] at c1 c2 c3 c4 c5
  have a4' : reg.length ≤ st1.1.length := a4
  have a5' : st1.2 = n + (st1.1.length - reg.length) := a5
  have b4' : st1.1.length ≤ st2.1.length := b4
  have b5' : st2.2 = st1.2 + (st2.1.length - st1.1.length) := b5
  have c4' : st2.1.length ≤ st3.1.length := c4
  have c5' : st3.2 = st2.2 + (st3.1.length - st2.1.length) := c5
  refine ⟨fun k v h => c1 k v (b1 k v (a1 k v h)), fun h => c2 (b2 (a2 h)),
    fun e he => ?_, by omega, by omega⟩
  rcases c3 e he with h1 | h1
  · rcases b3 e h1 with h2 | h2
    · exact a3 e h2
    · right
      obtain ⟨n1, hn1⟩ := registerWords_append gen L1 (reg, n)
      rw [← hst1] at hn1
      rw [hn1] at h2
      exact lookupSec_append_none_left reg n1 _ h2
  · right
    obtain ⟨n1, hn1⟩ := registerWords_append gen L1 (reg, n)
    obtain ⟨n2, hn2⟩ := registerWords_append gen L2 st1
    rw [← hst1] at hn1
    rw [← hst2, hn1, List.append_assoc] at hn2
    rw [hn2] at h1
    exact lookupSec_append_none_left reg _ _ h1

/-! ## Claim C5 -/

/-- **C5.**  Over one `ObfuscateStrings` run on the process-wide registry:
every existing binding is preserved verbatim (entries are never overwritten
or deleted), key uniqueness is preserved (no duplicate entry is ever
created, so a re-run over overlapping input reuses existing entries), a new
entry appears only for a rawToken that was previously absent, and the
accessor-name generator is drawn exactly once per newly created entry —
never for an already-registered rawToken. -/
theorem obfuscateStrings_registry_invariant (gen : Nat → Lit)
    (mkFunc : Lit → Lit → Lit) (reg : Registry) (n : Nat) (input out : Lit)
    (reg' : Registry) (n' : Nat)
    (hrun : ObfuscateStrings gen mkFunc reg n input = some (out, reg', n')) :
    (∀ k v, lookupSec reg k = some v → lookupSec reg' k = some v) ∧
    ((regKeys reg).Nodup → (regKeys reg').Nodup) ∧
    (∀ e ∈ reg', e ∈ reg ∨ lookupSec reg e.rawToken = none) ∧
    n' = n + (reg'.length - reg.length) := by
  rw [ObfuscateStrings] at hrun
  cases hsp : splitImports input with
  | none => rw [hsp] at hrun; exact Option.noConfusion hrun
  | some p =>
    rw [hsp] at hrun
    obtain ⟨hdr, body⟩ := p
    simp only [Option.some.injEq, Prod.mk.injEq] at hrun
    obtain ⟨-, hreg, hn⟩ := hrun
    obtain ⟨i1, i2, i3, i4, i5⟩ := registerAll_invariant gen reg n body
    subst hreg
    subst hn
    exact ⟨i1, i2, i3, i5⟩

/-- Initial registry for the C5 witness: one pre-existing entry. -/
def c5reg : Registry := [⟨"\"zz\"".toList, "zz".toList, ['Z']⟩]

/-- Generator and collaborator for the C5 witness. -/
def c5gen : Nat → Lit := fun _ => ['O']

/-- Code-emitting collaborator for the C5 witness. -/
def c5mk : Lit → Lit → Lit := fun _ _ => []

/-- Input for the C5 witness: one fresh literal `"hi"`, and the
already-registered literal `"zz"` occurring again. -/
def c5input : Lit := "import (x)\"hi\" \"zz\"".toList

/-- The run of the C5 witness. -/
def c5run : Lit × Registry × Nat :=
  (ObfuscateStrings c5gen c5mk c5reg 0 c5input).getD ([], [], 0)

/-- Witness for C5: on the concrete run, the pre-existing binding of
`"zz"` survives untouched (no duplicate, no new accessor draw for it), the
keys stay duplicate-free, and the counter advanced exactly once — for the
one new entry `"hi"`. -/
theorem obfuscateStrings_registry_invariant_witness :
    lookupSec c5run.2.1 "\"zz\"".toList = some ("zz".toList, ['Z']) ∧
    (regKeys c5run.2.1).Nodup ∧
    c5run.2.2 = 0 + (c5run.2.1.length - c5reg.length) := by
  have h := obfuscateStrings_registry_invariant c5gen c5mk c5reg 0 c5input
    c5run.1 c5run.2.1 c5run.2.2 (by rfl)
  exact ⟨h.1 "\"zz\"".toList ("zz".toList, ['Z']) (by rfl), h.2.1 (by decide), h.2.2.2⟩

/-! ## Claim C9 -/

/-- **C9.**  `ObfuscateStrings` never registers a delimited literal that
contains a backslash or whose content is empty (total length at most the
two delimiters): its registry binding is untouched by the whole discovery
pass, when it was absent before no binding and consequently no accessor
function is created for it (accessor functions are emitted per non-`leave`
registry entry only), and the skip never fails the pass — the run succeeds
on every input containing `import (`. -/
theorem obfuscateStrings_skip_invalid_literals (gen : Nat → Lit)
    (mkFunc : Lit → Lit → Lit) (reg : Registry) (n : Nat) (body w input : Lit)
    (hw : w.length ≤ 2 ∨ w.contains '\\' = true)
    (hnone : lookupSec reg w = none)
    (hin : importPat <:+: input) :
    lookupSec (registerAll gen (reg, n) body).1 w = none ∧
    w ∉ regKeys (funcPairs (registerAll gen (reg, n) body).1) ∧
    (ObfuscateStrings gen mkFunc reg n input).isSome = true := by
  have hskip : lookupSec (registerAll gen (reg, n) body).1 w = lookupSec reg w := by
    rw [registerAll_eq]
    rw [registerWords_lookup_invalid gen w hw, registerWords_lookup_invalid gen w hw,
      registerWords_lookup_invalid gen w hw]
  have h1 : lookupSec (registerAll gen (reg, n) body).1 w = none := hskip.trans hnone
  refine ⟨h1, fun hmem => ?_, ?_⟩
  · rw [lookupSec_eq_none_iff] at h1
    refine h1 ?_
    rw [regKeys] at hmem ⊢
    obtain ⟨e, he, heq⟩ := List.mem_map.mp hmem
    exact List.mem_map.mpr ⟨e, List.mem_of_mem_filter he, heq⟩
  · rw [ObfuscateStrings]
    cases hsp : splitImports input with
    | none =>
      rw [splitImports] at hsp
      cases hfi : firstIdx importPat input with
      | none => exact absurd ((firstIdx_none_iff importPat input).mp hfi) (by exact fun h => h hin)
      | some i => rw [hfi] at hsp; exact Option.noConfusion hsp
    | some p => rfl

/-- Skipped literal of the C9 witness: `"\"` (holds a backslash). -/
def c9w : Lit := "\"\\\"".toList

/-- Body of the C9 witness: the skipped literal occurs in it. -/
def c9body : Lit := "\"\\\" z".toList

/-- Input of the C9 witness. -/
def c9input : Lit := "import (x)\"\\\" z".toList

/-- Generator of the C9 witness. -/
def c9gen : Nat → Lit := fun _ => ['O']

/-- Code-emitting collaborator of the C9 witness. -/
def c9mk : Lit → Lit → Lit := fun _ _ => []

/-- Witness for C9 at a concrete body containing only the backslash
literal: nothing is registered, no accessor pair exists for it, and the
pass still succeeds. -/
theorem obfuscateStrings_skip_invalid_literals_witness :
    lookupSec (registerAll c9gen ([], 0) c9body).1 c9w = none ∧
    c9w ∉ regKeys (funcPairs (registerAll c9gen ([], 0) c9body).1) ∧
    (ObfuscateStrings c9gen c9mk [] 0 c9input).isSome = true :=
  obfuscateStrings_skip_invalid_literals c9gen c9mk [] 0 c9body c9w c9input
    (by decide) (by decide) (by decide)

/-! ## Claim C10 -/

/-- **C10.**  `ObfuscateStrings` is defined exactly on inputs containing
`import (`: the run is `none` — the model of the Go slice panic
`input[imports:]` with `imports = -1` — precisely when `import (` does not
occur in the input, for every generator, collaborator and registry state. -/
theorem obfuscateStrings_none_iff_no_import (gen : Nat → Lit)
    (mkFunc : Lit → Lit → Lit) (reg : Registry) (n : Nat) (input : Lit) :
    ObfuscateStrings gen mkFunc reg n input = none ↔ ¬ importPat <:+: input := by
  rw [ObfuscateStrings]
  cases hsp : splitImports input with
  | none =>
    have h1 : firstIdx importPat input = none := by
      rw [splitImports] at hsp
      cases hfi : firstIdx importPat input with
      | none => rfl
      | some i => rw [hfi] at hsp; exact Option.noConfusion hsp
    exact iff_of_true rfl ((firstIdx_none_iff importPat input).mp h1)
  | some p =>
    obtain ⟨hdr, body⟩ := p
    have h1 : firstIdx importPat input ≠ none := by
      intro hx
      rw [splitImports, hx] at hsp
      exact Option.noConfusion hsp
    have h2 : importPat <:+: input := by
      by_contra hn
      exact h1 ((firstIdx_none_iff importPat input).mpr hn)
    exact iff_of_false (fun hx => Option.noConfusion hx) (fun hn => hn h2)

/-! ## Claim C6 -/

theorem litChar_iff (q c : Char) : litChar q c = true ↔ c ≠ q ∧ c ≠ '\n' := by
  simp [litChar]

theorem takeWhile_all_append (p : Char → Bool) :
    ∀ (cs : Lit) (x : Char) (t : Lit), (∀ c ∈ cs, p c = true) → p x = false →
      (cs ++ x :: t).takeWhile p = cs ∧ (cs ++ x :: t).dropWhile p = x :: t := by
  intro cs
  induction cs with
  | nil =>
    intro x t _ hx
    constructor
    · simp [List.takeWhile_cons, hx]
    · simp [List.dropWhile_cons, hx]
  | cons c cs' ih =>
    intro x t hall hx
    have hc : p c = true := hall c (List.mem_cons_self c cs')
    obtain ⟨h1, h2⟩ := ih x t (fun d hd => hall d (List.mem_cons_of_mem c hd)) hx
    constructor
    · simp [List.takeWhile_cons, hc, h1]
    · simp [List.dropWhile_cons, hc, h2]

theorem findLitsF_sound (q : Char) :
    ∀ (n : Nat) (s : Lit), s.length ≤ n → ∀ w ∈ findLitsF q n s,
      ∃ cs, w = q :: (cs ++ [q]) ∧ (∀ c ∈ cs, c ≠ q ∧ c ≠ '\n') ∧ w <:+: s := by
  intro n
  induction n with
  | zero =>
    intro s hs w hw
    have : s = [] := List.eq_nil_of_length_eq_zero (Nat.le_zero.mp hs)
    subst this
    simp only [findLitsF] at hw
    exact absurd hw (List.not_mem_nil w)
  | succ n ih =>
    intro s hs w hw
    match s with
    | [] =>
      simp only [findLitsF] at hw
      exact absurd hw (List.not_mem_nil w)
    | c0 :: rest =>
      have hrl : rest.length ≤ n := by simpa using hs
      simp only [findLitsF] at hw
      by_cases hc0 : c0 = q
      · rw [if_pos hc0] at hw
        split at hw
        · rename_i hdw
          obtain ⟨cs, h1, h2, h3⟩ := ih rest hrl w hw
          exact ⟨cs, h1, h2, h3.trans (List.suffix_cons c0 rest).isInfix⟩
        · rename_i r rs hdw
          by_cases hr : r = q
          · rw [if_pos hr] at hw
            have hsplit : rest = rest.takeWhile (litChar q) ++ r :: rs := by
              conv_lhs => rw [← List.takeWhile_append_dropWhile (litChar q) rest]
              rw [hdw]
            rcases List.mem_cons.mp hw with rfl | hw2
            · refine ⟨rest.takeWhile (litChar q), by simp, ?_, ?_⟩
              · intro c hc
                exact (litChar_iff q c).mp (List.mem_takeWhile_imp hc)
              · refine (List.cons_prefix_cons.mpr ⟨hc0.symm, ?_⟩).isInfix
                refine ⟨rs, ?_⟩
                conv_rhs => rw [hsplit]
                simp [List.append_assoc, hr]
            · have hrs : rs.length ≤ n := by
                have hlen : (rest.dropWhile (litChar q)).length ≤ rest.length :=
                  (List.dropWhile_suffix _).length_le
                rw [hdw] at hlen
                simp only [List.length_cons] at hlen
                omega
              obtain ⟨cs, h1, h2, h3⟩ := ih rs hrs w hw2
              refine ⟨cs, h1, h2, h3.trans (List.IsSuffix.isInfix ⟨c0 ::
                rest.takeWhile (litChar q) ++ [r], ?_⟩)⟩
              conv_rhs => rw [hsplit]
              simp [List.append_assoc]
          · rw [if_neg hr] at hw
            obtain ⟨cs, h1, h2, h3⟩ := ih rest hrl w hw
            exact ⟨cs, h1, h2, h3.trans (List.suffix_cons c0 rest).isInfix⟩
      · rw [if_neg hc0] at hw
        obtain ⟨cs, h1, h2, h3⟩ := ih rest hrl w hw
        exact ⟨cs, h1, h2, h3.trans (List.suffix_cons c0 rest).isInfix⟩

theorem findLitsF_complete (q : Char) :
    ∀ (n : Nat) (u cs v : Lit), (u ++ q :: (cs ++ q :: v)).length ≤ n → q ∉ u →
      (∀ c ∈ cs, litChar q c = true) →
      (q :: (cs ++ [q])) ∈ findLitsF q n (u ++ q :: (cs ++ q :: v)) := by
  intro n
  induction n with
  | zero =>
    intro u cs v hs _ _
    exfalso
    simp [List.length_append] at hs
  | succ n ih =>
    intro u cs v hs hu hcs
    match u with
    | [] =>
      simp only [List.nil_append, findLitsF, if_pos rfl]
      obtain ⟨ht, hd⟩ := takeWhile_all_append (litChar q) cs q v hcs (by simp [litChar])
      rw [ht, hd]
      simp only [if_pos rfl]
      exact List.mem_cons_self _ _
    | c0 :: u' =>
      have hc0 : c0 ≠ q := fun h => hu (h ▸ List.mem_cons_self c0 u')
      simp only [List.cons_append, findLitsF]
      rw [if_neg hc0]
      refine ih u' cs v ?_ (fun h => hu (List.mem_cons_of_mem c0 h)) hcs
      simp only [List.cons_append, List.length_cons] at hs
      simp only [List.length_append]
      simp only [List.length_append] at hs
      omega

/-- **C6, amended.**  For each delimiter `q`, the discovery phase finds
exactly the leftmost non-overlapping delimited substrings whose content
contains neither the delimiter nor a newline (Go's `.` in `q.*?q` does not
match `\n`, so a literal whose content spans a line break is NOT found —
see `findLits_newline_cex`); every discovered word is such a delimited
infix of the body, the first cleanly delimited newline-free literal is
always discovered, and the per-pass deduplication keeps exactly the set of
discovered words with no duplicates. -/
theorem findLits_sound_complete (q : Char) (s : Lit) :
    (∀ w ∈ findLits q s, ∃ cs, w = q :: (cs ++ [q]) ∧
      (∀ c ∈ cs, c ≠ q ∧ c ≠ '\n') ∧ w <:+: s) ∧
    (∀ u cs v, s = u ++ q :: (cs ++ q :: v) → q ∉ u →
      (∀ c ∈ cs, c ≠ q ∧ c ≠ '\n') → (q :: (cs ++ [q])) ∈ findLits q s) ∧
    (∀ w, w ∈ Unique (findLits q s) ↔ w ∈ findLits q s) ∧
    (Unique (findLits q s)).Nodup := by
  refine ⟨fun w hw => findLitsF_sound q s.length s le_rfl w hw, ?_,
    fun w => mem_Unique _ w, nodup_Unique _⟩
  intro u cs v hdecomp hu hcs
  rw [findLits, hdecomp]
  have hlen : (u ++ q :: (cs ++ q :: v)).length ≤ (u ++ q :: (cs ++ q :: v)).length :=
    le_rfl
  exact findLitsF_complete q _ u cs v hlen hu
    (fun c hc => (litChar_iff q c).mpr (hcs c hc))

/-- Body of the C6 witness. -/
def c6wbody : Lit := "x\"ab\" y".toList

/-- Witness for C6 at a concrete body: the literal `"ab"` is discovered
(completeness instance) and the deduplicated pass keeps it, duplicate
free. -/
theorem findLits_sound_complete_witness :
    "\"ab\"".toList ∈ findLits '"' c6wbody ∧
    ("\"ab\"".toList ∈ Unique (findLits '"' c6wbody) ↔
      "\"ab\"".toList ∈ findLits '"' c6wbody) ∧
    (Unique (findLits '"' c6wbody)).Nodup := by
  have h := findLits_sound_complete '"' c6wbody
  refine ⟨?_, h.2.2.1 _, h.2.2.2⟩
  exact h.2.1 "x".toList "ab".toList " y".toList (by decide) (by decide) (by decide)

/-- Generator for the C6 counterexample. -/
def c6gen : Nat → Lit := fun _ => ['O']

/-- Code-emitting collaborator for the C6 counterexample. -/
def c6mk : Lit → Lit → Lit := fun _ _ => []

/-- Body of the C6 counterexample: one backtickless literal whose content
spans a newline. -/
def c6body : Lit := "\"a\nb\"".toList

/-- Input of the C6 counterexample. -/
def c6input : Lit := "import (x)\"a\nb\"".toList

/-- **C6, counterexample.**  The delimited substring `"a\nb"` occurs in
the body (it IS the body), yet discovery produces nothing for the `"`
delimiter, and a full `ObfuscateStrings` run registers nothing: the claim
that every delimited substring is found regardless of its content — in
particular with a newline inside — is false. -/
theorem findLits_newline_cex :
    "\"a\nb\"".toList <:+: c6body ∧
    findLits '"' c6body = [] ∧
    ((ObfuscateStrings c6gen c6mk [] 0 c6input).getD ([], [], 0)).2.1 = [] := by
  refine ⟨by decide, by decide, by decide⟩

end Pakkero
